import Mathlib

/-!
# Column-family iterators of `kv/util/engine_util/cf_iterator.go`

A shallow embedding of the two iterator adapters of the file: `BadgerIterator`
with its `CFItem` (the versioned engine) and `LevelDBIterator` (the ordered
engine).  Byte slices and Go strings are lists of bytes; a Go run-time panic
(slice out of range, nil dereference) is `none`.

The engines themselves (`badger`, `levigo`) are external packages.  They are
modelled in the namespaces `badger` and `levigo` as a cursor over entries kept
in ascending byte order of their keys.
-/

/-- One byte of a Go `[]byte` or `string`. -/
abbrev Byte := Fin 256

/-- A Go byte slice, or the bytes of a Go string. -/
abbrev Bytes := List Byte

/-- Three-way lexicographic comparison of byte strings, the order in which both
engines keep their keys (Go `bytes.Compare`). -/
def bytesCompare : Bytes → Bytes → Ordering
  | [], [] => Ordering.eq
  | [], _ :: _ => Ordering.lt
  | _ :: _, [] => Ordering.gt
  | a :: as, b :: bs =>
    if a < b then Ordering.lt
    else if b < a then Ordering.gt
    else bytesCompare as bs

/-- Go `bytes.HasPrefix(s, p)`. -/
def hasPrefix (s p : Bytes) : Bool := p.isPrefixOf s

/-- The bytes of the Go string literal `"_"`. -/
def underscore : Bytes := [Fin.ofNat '_'.toNat]

namespace badger

/-- Modelled from the spec: an entry of the versioned engine (package `badger`,
not under src/): its physical key, value, version (commit number), deletion
flag and user metadata. -/
structure Item where
  key : Bytes
  value : Bytes
  version : Nat
  deleted : Bool
  userMeta : Bytes
  deriving DecidableEq, Repr

/-- Modelled from the spec: a snapshot/transaction of the versioned engine
(package `badger`, not under src/): the entries visible to it, in the engine's
single global key order. -/
structure Txn where
  items : List Item
  deriving DecidableEq, Repr

/-- Modelled from the spec: the raw iterator of the versioned engine (package
`badger`, not under src/): "a position in the engine's single global sorted
keyspace".  `cur` holds the entry under the cursor followed by the ones after
it; it is empty when the cursor is on no entry.  `seeks` records the keys the
engine was asked to seek to, oldest first. -/
structure Iterator where
  items : List Item
  cur : List Item
  seeks : List Bytes
  deriving DecidableEq, Repr

/-- Modelled from the spec: `txn.NewIterator(opts)`; the fresh iterator is not
positioned on any entry. -/
def Txn.NewIterator (txn : Txn) : Iterator :=
  { items := txn.items, cur := [], seeks := [] }

/-- Modelled from the spec: the engine's `Item()`, the entry under the cursor
(`nil` when there is none). -/
def Iterator.Item (it : Iterator) : Option Item := it.cur.head?

/-- Modelled from the spec: the engine's `ValidForPrefix`: the cursor is on an
entry and the key of that entry starts with the given bytes. -/
def Iterator.ValidForPrefix (it : Iterator) (p : Bytes) : Bool :=
  match it.Item with
  | none => false
  | some item => hasPrefix item.key p

/-- Modelled from the spec: the engine's `Next`, "advances the underlying
engine cursor by one". -/
def Iterator.Next (it : Iterator) : Iterator :=
  { it with cur := it.cur.tail }

/-- Modelled from the spec: the engine's `Seek`: "seek to the provided key if
present. If absent, it would seek to the next smallest key greater than
provided". -/
def Iterator.Seek (it : Iterator) (key : Bytes) : Iterator :=
  { it with
    cur := it.items.dropWhile (fun item => decide (bytesCompare item.key key = Ordering.lt))
    seeks := it.seeks ++ [key] }

/-- Modelled from the spec: the engine's `Rewind`: "repositions the engine
cursor to the smallest key in the entire physical keyspace". -/
def Iterator.Rewind (it : Iterator) : Iterator :=
  { it with cur := it.items }

end badger

/-- The snapshot holds a set of physical keys in ascending byte order. -/
def Ascending (items : List badger.Item) : Prop :=
  items.Pairwise (fun a b => bytesCompare a.key b.key = Ordering.lt)

instance (items : List badger.Item) : Decidable (Ascending items) := by
  unfold Ascending; infer_instance

/-! ## `CFItem` -/

/-- Go `type CFItem struct`; `item` is a pointer and may be nil. -/
structure CFItem where
  item : Option badger.Item
  prefixLen : Nat
  deriving DecidableEq, Repr

/-- Go `CFItem.Key`: `i.item.Key()[i.prefixLen:]`; panics on a nil item and when
`prefixLen` exceeds the length of the key. -/
def CFItem.Key (i : CFItem) : Option Bytes :=
  match i.item with
  | none => none
  | some item =>
    if i.prefixLen ≤ item.key.length then some (item.key.drop i.prefixLen) else none

/-- Go `CFItem.Version`. -/
def CFItem.Version (i : CFItem) : Option Nat := i.item.map (fun item => item.version)

/-- Go `CFItem.Value`. -/
def CFItem.Value (i : CFItem) : Option Bytes := i.item.map (fun item => item.value)

/-- Go `CFItem.IsDeleted`. -/
def CFItem.IsDeleted (i : CFItem) : Option Bool := i.item.map (fun item => item.deleted)

/-- Go `CFItem.UserMeta`. -/
def CFItem.UserMeta (i : CFItem) : Option Bytes := i.item.map (fun item => item.userMeta)

/-! ## `BadgerIterator` -/

/-- Go `type BadgerIterator struct`; the field `pfx` is the Go field `prefix`. -/
structure BadgerIterator where
  iter : badger.Iterator
  pfx : Bytes
  deriving DecidableEq, Repr

/-- Go `NewCFIterator`. -/
def NewCFIterator (cf : Bytes) (txn : badger.Txn) : BadgerIterator :=
  { iter := txn.NewIterator, pfx := cf ++ underscore }

/-- Go `BadgerIterator.Item`. -/
def BadgerIterator.Item (it : BadgerIterator) : CFItem :=
  { item := it.iter.Item, prefixLen := it.pfx.length }

/-- Go `BadgerIterator.Valid`. -/
def BadgerIterator.Valid (it : BadgerIterator) : Bool :=
  it.iter.ValidForPrefix it.pfx

/-- Go `BadgerIterator.ValidForPrefix`. -/
def BadgerIterator.ValidForPrefix (it : BadgerIterator) (p : Bytes) : Bool :=
  it.iter.ValidForPrefix (it.pfx ++ p)

/-- Go `BadgerIterator.Next`. -/
def BadgerIterator.Next (it : BadgerIterator) : BadgerIterator :=
  { it with iter := it.iter.Next }

/-- Go `BadgerIterator.Seek`. -/
def BadgerIterator.Seek (it : BadgerIterator) (key : Bytes) : BadgerIterator :=
  { it with iter := it.iter.Seek (it.pfx ++ key) }

/-- Go `BadgerIterator.Rewind`. -/
def BadgerIterator.Rewind (it : BadgerIterator) : BadgerIterator :=
  { it with iter := it.iter.Rewind }

/-- The caller's loop documented on `DBIterator`: while `Valid()`, read
`Item().Key()` and call `Next()`.  Returns the keys read, in order, and the
iterator the loop ends on; `none` when a `Key()` panics or the fuel runs out
before `Valid()` turns false. -/
def scan : Nat → BadgerIterator → Option (List Bytes × BadgerIterator)
  | 0, _ => none
  | fuel + 1, it =>
    if it.Valid then
      match it.Item.Key with
      | none => none
      | some k =>
        match scan fuel it.Next with
        | none => none
        | some (ks, it') => some (k :: ks, it')
    else some ([], it)

/-! ## `LevelDBIterator` -/

namespace levigo

/-- Modelled from the spec: the handle of the ordered engine (package `levigo`,
not under src/): its key-value entries in ascending key order, and the fault
its iterators will report, if any. -/
structure DB where
  entries : List (Bytes × Bytes)
  fault : Option String
  deriving DecidableEq, Repr

/-- Modelled from the spec: the raw iterator of the ordered engine (package
`levigo`, not under src/).  `pos` is the index of the entry under the cursor;
the cursor is on no entry when `pos` is not an index of `entries`.  `err` is
the deferred I/O or corruption failure. -/
structure Iterator where
  entries : List (Bytes × Bytes)
  pos : Nat
  err : Option String
  deriving DecidableEq, Repr

/-- Modelled from the spec: `db.NewIterator(ro)`; not positioned. -/
def DB.NewIterator (db : DB) : Iterator :=
  { entries := db.entries, pos := db.entries.length, err := db.fault }

/-- Modelled from the spec: engine validity. -/
def Iterator.Valid (it : Iterator) : Bool := decide (it.pos < it.entries.length)

/-- Modelled from the spec: the key under the cursor; undefined (`none`) when
the iterator is not valid. -/
def Iterator.Key (it : Iterator) : Option Bytes := (it.entries.get? it.pos).map Prod.fst

/-- Modelled from the spec: the value under the cursor. -/
def Iterator.Value (it : Iterator) : Option Bytes := (it.entries.get? it.pos).map Prod.snd

/-- Modelled from the spec: forward movement. -/
def Iterator.Next (it : Iterator) : Iterator :=
  if it.Valid then { it with pos := it.pos + 1 } else it

/-- Modelled from the spec: backward movement; moving back from the first entry
leaves the iterator invalid. -/
def Iterator.Prev (it : Iterator) : Iterator :=
  if it.Valid then
    (if it.pos = 0 then { it with pos := it.entries.length } else { it with pos := it.pos - 1 })
  else it

/-- Modelled from the spec: "seek to the provided key if present. If absent, it
would seek to the next smallest key greater than provided". -/
def Iterator.Seek (it : Iterator) (key : Bytes) : Iterator :=
  { it with
    pos := (it.entries.takeWhile (fun e => decide (bytesCompare e.1 key = Ordering.lt))).length }

/-- Modelled from the spec: first entry of the entire physical keyspace. -/
def Iterator.SeekToFirst (it : Iterator) : Iterator := { it with pos := 0 }

/-- Modelled from the spec: last entry of the entire physical keyspace. -/
def Iterator.SeekToLast (it : Iterator) : Iterator := { it with pos := it.entries.length - 1 }

/-- Modelled from the spec: the engine's deferred I/O or corruption failure. -/
def Iterator.GetError (it : Iterator) : Option String := it.err

end levigo

/-- Go `type LevelDBIterator struct`; the field `pfx` is the Go field `prefix`. -/
structure LevelDBIterator where
  iter : levigo.Iterator
  pfx : Bytes
  prefixlen : Nat
  deriving DecidableEq, Repr

/-- Go `NewLevelDBIterator`. -/
def NewLevelDBIterator (cf : Bytes) (db : levigo.DB) : LevelDBIterator :=
  let pfx := cf ++ underscore
  { iter := db.NewIterator, pfx := pfx, prefixlen := pfx.length }

/-- Go `LevelDBIterator.Value`. -/
def LevelDBIterator.Value (i : LevelDBIterator) : Option Bytes := i.iter.Value

/-- Go `LevelDBIterator.Valid`. -/
def LevelDBIterator.Valid (i : LevelDBIterator) : Bool := i.iter.Valid

/-- Go `LevelDBIterator.Next`. -/
def LevelDBIterator.Next (i : LevelDBIterator) : LevelDBIterator :=
  { i with iter := i.iter.Next }

/-- Go `LevelDBIterator.Prev`. -/
def LevelDBIterator.Prev (i : LevelDBIterator) : LevelDBIterator :=
  { i with iter := i.iter.Prev }

/-- Go `LevelDBIterator.Key`: `i.iter.Key()[i.prefixlen:]`. -/
def LevelDBIterator.Key (i : LevelDBIterator) : Option Bytes :=
  match i.iter.Key with
  | none => none
  | some k => if i.prefixlen ≤ k.length then some (k.drop i.prefixlen) else none

/-- Go `LevelDBIterator.Seek`: `i.iter.Seek(key)`. -/
def LevelDBIterator.Seek (i : LevelDBIterator) (key : Bytes) : LevelDBIterator :=
  { i with iter := i.iter.Seek key }

/-- Go `LevelDBIterator.SeekToFirst`. -/
def LevelDBIterator.SeekToFirst (i : LevelDBIterator) : LevelDBIterator :=
  { i with iter := i.iter.SeekToFirst }

/-- Go `LevelDBIterator.SeekToLast`. -/
def LevelDBIterator.SeekToLast (i : LevelDBIterator) : LevelDBIterator :=
  { i with iter := i.iter.SeekToLast }

/-- Go `LevelDBIterator.Error`: the method has no result; it calls the engine's
`GetError` and drops what it returns.  The pair is the method's (empty) result
and the iterator afterwards. -/
def LevelDBIterator.Error (i : LevelDBIterator) : Unit × LevelDBIterator :=
  let _ := i.iter.GetError
  ((), i)

/-- Bytes of an ASCII string, for writing keys in examples. -/
def ascii (s : String) : Bytes := s.toList.map (fun c => Fin.ofNat c.toNat)

/-- An engine entry with the given key and value, version 1, not deleted. -/
def entry (key value : String) : badger.Item :=
  { key := ascii key, value := ascii value, version := 1, deleted := false, userMeta := [] }

/-- The snapshot of the scenario: CF `default` holds `a`, `b`, `c`; CF `lock`
holds `m`. -/
def scenarioTxn : badger.Txn :=
  { items := [entry "default_a" "1", entry "default_b" "2", entry "default_c" "3",
              entry "lock_m" "4"] }

/-- An ordered-engine handle holding the single physical key `cf_k`. -/
def oneKeyDB : levigo.DB := { entries := [(ascii "cf_k", ascii "v")], fault := none }

/-- An ordered-engine handle holding `default_a` and `default_b`. -/
def twoKeyDB : levigo.DB :=
  { entries := [(ascii "default_a", ascii "1"), (ascii "default_b", ascii "2")], fault := none }

/-- An ordered-engine handle whose iteration was stopped by a fault. -/
def faultyDB : levigo.DB := { entries := [], fault := some "corruption" }

/-- An ordered-engine handle that is cleanly exhausted. -/
def cleanDB : levigo.DB := { entries := [], fault := none }

/-! ## The key order -/

theorem bytesCompare_self (a : Bytes) : bytesCompare a a = Ordering.eq := by
  induction a with
  | nil => rfl
  | cons x xs ih => simp [bytesCompare, ih]

theorem bytesCompare_eq_iff (a b : Bytes) : bytesCompare a b = Ordering.eq ↔ a = b := by
  induction a generalizing b with
  | nil => cases b <;> simp [bytesCompare]
  | cons x xs ih =>
    cases b with
    | nil => simp [bytesCompare]
    | cons y ys =>
      simp only [bytesCompare]
      by_cases h1 : x < y
      · simp [h1]; intro h; exact absurd (h ▸ h1) (lt_irrefl _)
      · by_cases h2 : y < x
        · simp [h1, h2]; intro h; exact absurd (h ▸ h2) (lt_irrefl _)
        · have hxy : x = y := le_antisymm (not_lt.mp h2) (not_lt.mp h1)
          simp [h1, h2, ih, hxy]

theorem bytesCompare_gt_iff (a b : Bytes) :
    bytesCompare a b = Ordering.gt ↔ bytesCompare b a = Ordering.lt := by
  induction a generalizing b with
  | nil => cases b <;> simp [bytesCompare]
  | cons x xs ih =>
    cases b with
    | nil => simp [bytesCompare]
    | cons y ys =>
      simp only [bytesCompare]
      by_cases h1 : x < y
      · have h2 : ¬ y < x := not_lt.mpr (le_of_lt h1)
        simp [h1, h2]
      · by_cases h2 : y < x
        · simp [h1, h2]
        · simp [h1, h2, ih]

theorem bytesCompare_append_left (p a b : Bytes) :
    bytesCompare (p ++ a) (p ++ b) = bytesCompare a b := by
  induction p with
  | nil => rfl
  | cons x xs ih => simp [bytesCompare, ih]

theorem bytesCompare_lt_trans {a b c : Bytes} (hab : bytesCompare a b = Ordering.lt)
    (hbc : bytesCompare b c = Ordering.lt) : bytesCompare a c = Ordering.lt := by
  induction a generalizing b c with
  | nil =>
    cases b with
    | nil => simp [bytesCompare] at hab
    | cons y ys =>
      cases c with
      | nil => simp [bytesCompare] at hbc
      | cons z zs => simp [bytesCompare]
  | cons x xs ih =>
    cases b with
    | nil => simp [bytesCompare] at hab
    | cons y ys =>
      cases c with
      | nil => simp [bytesCompare] at hbc
      | cons z zs =>
        simp only [bytesCompare] at hab hbc ⊢
        by_cases hxy : x < y
        · by_cases hyz : y < z
          · simp [lt_trans hxy hyz]
          · by_cases hzy : z < y
            · simp [hyz, hzy] at hbc
            · have : y = z := le_antisymm (not_lt.mp hzy) (not_lt.mp hyz)
              subst this; simp [hxy]
        · by_cases hyx : y < x
          · simp [hxy, hyx] at hab
          · have : x = y := le_antisymm (not_lt.mp hyx) (not_lt.mp hxy)
            subst this
            simp only [hxy, if_false] at hab
            by_cases hxz : x < z
            · simp [hxz]
            · by_cases hzx : z < x
              · simp [hxz, hzx] at hbc
              · simp only [hxz, hzx, if_false] at hbc ⊢
                exact ih hab hbc

theorem hasPrefix_iff (s p : Bytes) : hasPrefix s p = true ↔ ∃ t, s = p ++ t := by
  unfold hasPrefix
  rw [List.isPrefixOf_iff_prefix]
  constructor
  · rintro ⟨t, ht⟩; exact ⟨t, ht.symm⟩
  · rintro ⟨t, ht⟩; exact ⟨t, ht.symm⟩

theorem hasPrefix_append (p t : Bytes) : hasPrefix (p ++ t) p = true :=
  (hasPrefix_iff _ _).mpr ⟨t, rfl⟩

/-- A key at or after `p ++ k` that does not start with `p` sorts after every
key that starts with `p`. -/
theorem bytesCompare_gt_of_not_hasPrefix (p x k j : Bytes) (hx : hasPrefix x p = false)
    (hge : bytesCompare x (p ++ k) ≠ Ordering.lt) :
    bytesCompare x (p ++ j) = Ordering.gt := by
  induction p generalizing x with
  | nil => simp [hasPrefix] at hx
  | cons a p ih =>
    cases x with
    | nil => simp [bytesCompare] at hge
    | cons b x =>
      simp only [List.cons_append, bytesCompare] at hge ⊢
      by_cases hba : b < a
      · simp [hba] at hge
      · by_cases hab : a < b
        · simp [hba, hab]
        · have : b = a := le_antisymm (not_lt.mp hab) (not_lt.mp hba)
          subst this
          simp only [hba, if_false] at hge ⊢
          apply ih
          · simpa [hasPrefix] using hx
          · exact hge

/-! ## Scanning an ascending list -/

theorem takeWhile_eq_filter_of_pairwise {α : Type} (R : α → α → Prop) (P : α → Bool)
    (l : List α) (hl : l.Pairwise R)
    (hP : ∀ a ∈ l, ∀ b ∈ l, R a b → P a = false → P b = false) :
    l.takeWhile P = l.filter P := by
  induction l with
  | nil => rfl
  | cons x xs ih =>
    rw [List.pairwise_cons] at hl
    by_cases hx : P x = true
    · rw [List.takeWhile_cons_of_pos hx, List.filter_cons_of_pos hx,
        ih hl.2 (fun a ha b hb => hP a (List.mem_cons_of_mem _ ha) b (List.mem_cons_of_mem _ hb))]
    · have hx' : P x = false := by simpa using hx
      rw [List.takeWhile_cons_of_neg hx, List.filter_cons_of_neg hx]
      symm
      rw [List.filter_eq_nil_iff]
      intro b hb
      have := hP x (List.mem_cons_self _ _) b (List.mem_cons_of_mem _ hb) (hl.1 b hb) hx'
      simp [this]

theorem dropWhile_eq_filter_of_pairwise {α : Type} (R : α → α → Prop) (Q : α → Bool)
    (l : List α) (hl : l.Pairwise R)
    (hQ : ∀ a ∈ l, ∀ b ∈ l, R a b → Q a = false → Q b = false) :
    l.dropWhile Q = l.filter (fun a => !Q a) := by
  induction l with
  | nil => rfl
  | cons x xs ih =>
    have hl' := hl
    rw [List.pairwise_cons] at hl'
    by_cases hx : Q x = true
    · rw [List.dropWhile_cons_of_pos hx, List.filter_cons_of_neg (by simp [hx]),
        ih hl'.2 (fun a ha b hb => hQ a (List.mem_cons_of_mem _ ha) b (List.mem_cons_of_mem _ hb))]
    · have hx' : Q x = false := by simpa using hx
      rw [List.dropWhile_cons_of_neg hx]
      symm
      rw [List.filter_eq_self]
      intro b hb
      rcases List.mem_cons.mp hb with rfl | hb
      · simp [hx']
      · simp [hQ x (List.mem_cons_self _ _) b (List.mem_cons_of_mem _ hb) (hl'.1 b hb) hx']

/-! ## The adapters -/

theorem length_le_of_hasPrefix {s p : Bytes} (h : hasPrefix s p = true) :
    p.length ≤ s.length := by
  obtain ⟨t, rfl⟩ := (hasPrefix_iff s p).mp h
  simp

theorem drop_of_hasPrefix {s p : Bytes} (h : hasPrefix s p = true) :
    p ++ s.drop p.length = s := by
  obtain ⟨t, rfl⟩ := (hasPrefix_iff s p).mp h
  simp

theorem valid_iff (it : BadgerIterator) :
    it.Valid = true ↔ ∃ item, it.iter.Item = some item ∧ hasPrefix item.key it.pfx = true := by
  unfold BadgerIterator.Valid badger.Iterator.ValidForPrefix
  cases h : it.iter.Item with
  | none => simp
  | some item => simp

theorem validForPrefix_iff (it : BadgerIterator) (p : Bytes) :
    it.ValidForPrefix p = true ↔
      ∃ item, it.iter.Item = some item ∧ hasPrefix item.key (it.pfx ++ p) = true := by
  unfold BadgerIterator.ValidForPrefix badger.Iterator.ValidForPrefix
  cases h : it.iter.Item with
  | none => simp
  | some item => simp

theorem key_of_valid (it : BadgerIterator) (item : badger.Item)
    (hitem : it.iter.Item = some item) (hp : hasPrefix item.key it.pfx = true) :
    it.Item.Key = some (item.key.drop it.pfx.length) := by
  simp [BadgerIterator.Item, CFItem.Key, hitem, length_le_of_hasPrefix hp]

/-- With more fuel than entries left under the cursor, the loop reads the keys
of the longest run of entries carrying the iterator's prefix and stops on the
first entry that does not. -/
theorem scan_eq (items cur : List badger.Item) (seeks : List Bytes) (p : Bytes) (fuel : Nat)
    (hfuel : cur.length < fuel) :
    scan fuel { iter := { items := items, cur := cur, seeks := seeks }, pfx := p } =
      some ((cur.takeWhile (fun item => hasPrefix item.key p)).map
              (fun item => item.key.drop p.length),
            { iter := { items := items,
                        cur := cur.dropWhile (fun item => hasPrefix item.key p),
                        seeks := seeks },
              pfx := p }) := by
  induction cur generalizing fuel with
  | nil =>
    cases fuel with
    | zero => simp at hfuel
    | succ n =>
      simp [scan, BadgerIterator.Valid, badger.Iterator.ValidForPrefix, badger.Iterator.Item]
  | cons x xs ih =>
    cases fuel with
    | zero => simp at hfuel
    | succ n =>
      have hn : xs.length < n := by simpa using hfuel
      by_cases hx : hasPrefix x.key p = true
      · have hlen := length_le_of_hasPrefix hx
        simp [scan, BadgerIterator.Valid, badger.Iterator.ValidForPrefix, badger.Iterator.Item,
          BadgerIterator.Item, CFItem.Key, BadgerIterator.Next, badger.Iterator.Next, hx, hlen,
          ih n hn]
      · simp [scan, BadgerIterator.Valid, badger.Iterator.ValidForPrefix, badger.Iterator.Item, hx]

/-- After `Seek(k)` on an ascending snapshot the loop reads exactly the entries
that carry the prefix and are not below the sought physical key. -/
theorem scan_seek_eq (txn : badger.Txn) (c k : Bytes) (fuel : Nat)
    (hasc : Ascending txn.items) (hfuel : txn.items.length < fuel) :
    scan fuel ((NewCFIterator c txn).Seek k) =
      some (((txn.items.filter (fun item =>
                !decide (bytesCompare item.key (c ++ underscore ++ k) = Ordering.lt))).filter
              (fun item => hasPrefix item.key (c ++ underscore))).map
              (fun item => item.key.drop (c ++ underscore).length),
            { iter := { items := txn.items,
                        cur := (txn.items.dropWhile (fun item =>
                          decide (bytesCompare item.key (c ++ underscore ++ k) = Ordering.lt))).dropWhile
                            (fun item => hasPrefix item.key (c ++ underscore)),
                        seeks := [c ++ underscore ++ k] },
              pfx := c ++ underscore }) := by
  have hdrop := dropWhile_eq_filter_of_pairwise
    (fun a b : badger.Item => bytesCompare a.key b.key = Ordering.lt)
    (fun item => decide (bytesCompare item.key (c ++ underscore ++ k) = Ordering.lt))
    txn.items hasc (by
      intro a _ b _ hab ha
      by_contra hb
      have hb' : bytesCompare b.key (c ++ underscore ++ k) = Ordering.lt := by simpa using hb
      have := bytesCompare_lt_trans hab hb'
      simp only [List.append_assoc] at this
      exact absurd this (by simpa using ha))
  have hfil : (txn.items.filter (fun item =>
      !decide (bytesCompare item.key (c ++ underscore ++ k) = Ordering.lt))).Pairwise
      (fun a b : badger.Item => bytesCompare a.key b.key = Ordering.lt) :=
    List.Pairwise.sublist (List.filter_sublist _) hasc
  have htake := takeWhile_eq_filter_of_pairwise
    (fun a b : badger.Item => bytesCompare a.key b.key = Ordering.lt)
    (fun item => hasPrefix item.key (c ++ underscore))
    _ hfil (by
      intro a ha b _ hab hpa
      by_contra hpb
      have hpb' : hasPrefix b.key (c ++ underscore) = true := by simpa using hpb
      obtain ⟨t, ht⟩ := (hasPrefix_iff _ _).mp hpb'
      have hge : bytesCompare a.key (c ++ underscore ++ k) ≠ Ordering.lt := by
        have := (List.mem_filter.mp ha).2
        simpa using this
      have hgt := bytesCompare_gt_of_not_hasPrefix (c ++ underscore) a.key k t hpa hge
      rw [← ht, hab] at hgt
      exact absurd hgt (by decide))
  have hlen : (txn.items.dropWhile (fun item =>
      decide (bytesCompare item.key (c ++ underscore ++ k) = Ordering.lt))).length < fuel :=
    lt_of_le_of_lt (List.Sublist.length_le (List.dropWhile_sublist _)) hfuel
  have hs := scan_eq txn.items _ [c ++ underscore ++ k] (c ++ underscore) fuel hlen
  simp only [NewCFIterator, BadgerIterator.Seek, badger.Iterator.Seek, badger.Txn.NewIterator,
    List.nil_append, List.append_assoc] at hs ⊢
  rw [hs]
  simp only [List.append_assoc] at hdrop htake
  rw [← htake, ← hdrop]

theorem codec_injective (A B k1 k2 : Bytes) (hA : (0x5F : Byte) ∉ A) (hB : (0x5F : Byte) ∉ B)
    (h : A ++ underscore ++ k1 = B ++ underscore ++ k2) : A = B ∧ k1 = k2 := by
  induction A generalizing B with
  | nil =>
    cases B with
    | nil => simpa using h
    | cons b B =>
      exfalso
      simp only [underscore, List.nil_append, List.cons_append, List.singleton_append,
        List.cons.injEq] at h
      have hb : b = (0x5F : Byte) := by rw [← h.1]; decide
      exact hB (hb ▸ List.mem_cons_self _ _)
  | cons a A ih =>
    cases B with
    | nil =>
      exfalso
      simp only [underscore, List.nil_append, List.cons_append, List.singleton_append,
        List.cons.injEq] at h
      have ha : a = (0x5F : Byte) := by rw [h.1]; decide
      exact hA (ha ▸ List.mem_cons_self _ _)
    | cons b B =>
      simp only [List.cons_append, List.cons.injEq] at h
      have hA' : (0x5F : Byte) ∉ A := fun hm => hA (List.mem_cons_of_mem _ hm)
      have hB' : (0x5F : Byte) ∉ B := fun hm => hB (List.mem_cons_of_mem _ hm)
      obtain ⟨h1, h2⟩ := ih B hA' hB' h.2
      exact ⟨by rw [h.1, h1], h2⟩

/-! ## The claims -/

/-- C1: prefix codec round trip.  When the engine cursor is on an entry whose
key is the physical key that `Seek(k)` of a `NewCFIterator(c, txn)` iterator
handed to the engine, `Item().Key()` (which drops the first `prefixLen` bytes,
`prefixLen` being the length of `c + "_"`) returns exactly `k`. -/
theorem C1_codec_round_trip (c k : Bytes) (txn : badger.Txn) (e : badger.Iterator)
    (item : badger.Item) (hcur : e.Item = some item)
    (hkey : ((NewCFIterator c txn).Seek k).iter.seeks = [item.key]) :
    (BadgerIterator.Item { NewCFIterator c txn with iter := e }).prefixLen
        = (c ++ underscore).length ∧
      (BadgerIterator.Item { NewCFIterator c txn with iter := e }).Key = some k := by
  have hk : item.key = c ++ underscore ++ k := by
    simp only [NewCFIterator, BadgerIterator.Seek, badger.Iterator.Seek,
      badger.Txn.NewIterator, List.nil_append, List.cons.injEq, and_true] at hkey
    exact hkey.symm
  refine ⟨rfl, ?_⟩
  have hp : hasPrefix item.key (c ++ underscore) = true := by
    rw [hk]; exact hasPrefix_append _ _
  have := key_of_valid { NewCFIterator c txn with iter := e } item hcur hp
  rw [this, hk]
  simp [NewCFIterator]

/-- The round trip on the scenario snapshot: seeking CF default to b and decoding the entry found gives b. -/
theorem C1_codec_round_trip_witness :
    (BadgerIterator.Item
        { NewCFIterator (ascii "default") scenarioTxn with
          iter := ((NewCFIterator (ascii "default") scenarioTxn).Seek (ascii "b")).iter }).Key
      = some (ascii "b") :=
  (C1_codec_round_trip (ascii "default") (ascii "b") scenarioTxn
    ((NewCFIterator (ascii "default") scenarioTxn).Seek (ascii "b")).iter
    (entry "default_b" "2") (by decide) (by decide)).2

/-- C2: for an iterator built by `NewCFIterator(cf, txn)` and any engine cursor
state `e`, `Valid()` is true exactly when the cursor is on an entry whose
physical key starts with `cf ++ "_"`; two cursor states whose current entries
have the same key (whatever their version, deletion flag, value or metadata)
give the same `Valid()`. -/
theorem C2_valid_iff_cf_prefix (cf : Bytes) (txn : badger.Txn) (e : badger.Iterator) :
    (BadgerIterator.Valid { NewCFIterator cf txn with iter := e } = true ↔
        ∃ item t, e.Item = some item ∧ item.key = cf ++ [0x5F] ++ t) ∧
      (∀ e' : badger.Iterator,
        e.Item.map (fun item => item.key) = e'.Item.map (fun item => item.key) →
        BadgerIterator.Valid { NewCFIterator cf txn with iter := e } =
          BadgerIterator.Valid { NewCFIterator cf txn with iter := e' }) := by
  constructor
  · rw [valid_iff]
    constructor
    · rintro ⟨item, hitem, hp⟩
      obtain ⟨t, ht⟩ := (hasPrefix_iff _ _).mp hp
      exact ⟨item, t, hitem, ht⟩
    · rintro ⟨item, t, hitem, ht⟩
      exact ⟨item, hitem, (hasPrefix_iff _ _).mpr ⟨t, ht⟩⟩
  · intro e' h
    simp only [BadgerIterator.Valid, badger.Iterator.ValidForPrefix]
    cases h1 : e.Item with
    | none =>
      cases h2 : e'.Item with
      | none => rfl
      | some b => simp [h1, h2] at h
    | some a =>
      cases h2 : e'.Item with
      | none => simp [h1, h2] at h
      | some b =>
        simp only [h1, h2, Option.map_some', Option.some.injEq] at h
        simp [h]

/-- C4: cross-CF isolation.  For CF names `A`, `B` without the byte 0x5F, equal
physical keys `A ++ "_" ++ k1 = B ++ "_" ++ k2` force `A = B` and `k1 = k2`;
and when `A ≠ B`, a physical key of `B` does not start with `A ++ "_"`, so an
iterator scoped to `A` whose cursor is on an entry written under `B` is not
`Valid()`. -/
theorem C4_cross_cf_isolation (A B k1 k2 : Bytes) (hA : (0x5F : Byte) ∉ A)
    (hB : (0x5F : Byte) ∉ B) :
    (A ++ underscore ++ k1 = B ++ underscore ++ k2 → A = B ∧ k1 = k2) ∧
      (A ≠ B →
        hasPrefix (B ++ underscore ++ k2) (A ++ underscore) = false ∧
        ∀ (txn : badger.Txn) (e : badger.Iterator) (item : badger.Item),
          e.Item = some item → item.key = B ++ underscore ++ k2 →
          BadgerIterator.Valid { NewCFIterator A txn with iter := e } = false) := by
  have hnp : A ≠ B → hasPrefix (B ++ underscore ++ k2) (A ++ underscore) = false := by
    intro hne
    by_contra hp
    have hp' : hasPrefix (B ++ underscore ++ k2) (A ++ underscore) = true := by simpa using hp
    obtain ⟨t, ht⟩ := (hasPrefix_iff _ _).mp hp'
    exact hne (codec_injective A B t k2 hA hB ht.symm).1
  refine ⟨codec_injective A B k1 k2 hA hB, fun hne => ⟨hnp hne, ?_⟩⟩
  intro txn e item hitem hkey
  have := hnp hne
  simp only [BadgerIterator.Valid, badger.Iterator.ValidForPrefix, NewCFIterator, hitem, hkey]
  exact this

/-- Isolation on the scenario snapshot: the entry lock_m is not valid for an iterator scoped to default. -/
theorem C4_cross_cf_isolation_witness :
    hasPrefix (ascii "lock" ++ underscore ++ ascii "m") (ascii "default" ++ underscore) = false ∧
      BadgerIterator.Valid
        { NewCFIterator (ascii "default") scenarioTxn with
          iter := ((NewCFIterator (ascii "lock") scenarioTxn).Seek (ascii "m")).iter } = false :=
  have h := (C4_cross_cf_isolation (ascii "default") (ascii "lock") (ascii "m") (ascii "m")
    (by decide) (by decide)).2 (by decide)
  ⟨h.1, h.2 scenarioTxn _ (entry "lock_m" "4") (by decide) (by decide)⟩

/-- C5: bit-exact physical key.  `Seek(key)` on an iterator built by
`NewCFIterator(cf, txn)`, in any cursor state, makes exactly one engine call,
`Seek` with the bytes of `cf`, then the byte 0x5F, then the bytes of `key`;
the iterator's stored prefix stays `cf ++ [0x5F]`. -/
theorem C5_seek_physical_key (cf key : Bytes) (txn : badger.Txn) (e : badger.Iterator) :
    (BadgerIterator.Seek { NewCFIterator cf txn with iter := e } key).iter
        = e.Seek (cf ++ [0x5F] ++ key) ∧
      (BadgerIterator.Seek { NewCFIterator cf txn with iter := e } key).iter.seeks
        = e.seeks ++ [cf ++ [0x5F] ++ key] ∧
      (BadgerIterator.Seek { NewCFIterator cf txn with iter := e } key).pfx = cf ++ [0x5F] ∧
      (NewCFIterator cf txn).pfx = cf ++ [0x5F] := by
  refine ⟨rfl, rfl, rfl, rfl⟩

/-- C6: for an iterator scoped to CF `A`, any cursor state `e` and any bytes
`p`, `ValidForPrefix(p)` is true exactly when the current physical key starts
with `A ++ "_" ++ p`; it implies `Valid()`; for the empty `p` it equals
`Valid()`; and when `Valid()` holds it is true exactly when `p` is a prefix of
`Item().Key()`. -/
theorem C6_validForPrefix (A p : Bytes) (txn : badger.Txn) (e : badger.Iterator) :
    (BadgerIterator.ValidForPrefix { NewCFIterator A txn with iter := e } p = true ↔
        ∃ item t, e.Item = some item ∧ item.key = A ++ [0x5F] ++ p ++ t) ∧
      (BadgerIterator.ValidForPrefix { NewCFIterator A txn with iter := e } p = true →
        BadgerIterator.Valid { NewCFIterator A txn with iter := e } = true) ∧
      BadgerIterator.ValidForPrefix { NewCFIterator A txn with iter := e } [] =
        BadgerIterator.Valid { NewCFIterator A txn with iter := e } ∧
      (BadgerIterator.Valid { NewCFIterator A txn with iter := e } = true →
        ∃ k, (BadgerIterator.Item { NewCFIterator A txn with iter := e }).Key = some k ∧
          (BadgerIterator.ValidForPrefix { NewCFIterator A txn with iter := e } p = true ↔
            ∃ t, k = p ++ t)) := by
  refine ⟨?_, ?_, ?_, ?_⟩
  · rw [validForPrefix_iff]
    constructor
    · rintro ⟨item, hitem, hp⟩
      obtain ⟨t, ht⟩ := (hasPrefix_iff _ _).mp hp
      exact ⟨item, t, hitem, ht⟩
    · rintro ⟨item, t, hitem, ht⟩
      exact ⟨item, hitem, (hasPrefix_iff _ _).mpr ⟨t, ht⟩⟩
  · rw [validForPrefix_iff, valid_iff]
    rintro ⟨item, hitem, hp⟩
    obtain ⟨t, ht⟩ := (hasPrefix_iff _ _).mp hp
    refine ⟨item, hitem, (hasPrefix_iff _ _).mpr ⟨p ++ t, ?_⟩⟩
    rw [ht]; simp
  · simp [BadgerIterator.ValidForPrefix, BadgerIterator.Valid]
  · intro hv
    obtain ⟨item, hitem, hp⟩ := (valid_iff _).mp hv
    refine ⟨_, key_of_valid _ item hitem hp, ?_⟩
    obtain ⟨s, hs⟩ := (hasPrefix_iff _ _).mp hp
    rw [validForPrefix_iff]
    have hdrop : item.key.drop (A ++ underscore).length = s := by
      simp only [NewCFIterator] at hs
      rw [hs]; simp
    simp only [NewCFIterator] at hs hitem ⊢
    rw [hdrop]
    constructor
    · rintro ⟨item', hitem', hp'⟩
      rw [hitem] at hitem'
      cases hitem'
      obtain ⟨t, ht⟩ := (hasPrefix_iff _ _).mp hp'
      refine ⟨t, ?_⟩
      rw [hs] at ht
      simp only [List.append_assoc] at ht
      exact List.append_cancel_left (List.append_cancel_left ht)
    · rintro ⟨t, ht⟩
      refine ⟨item, hitem, (hasPrefix_iff _ _).mpr ⟨t, ?_⟩⟩
      rw [hs, ht]; simp

/-- C10: key slicing is safe under `Valid()`.  Whenever `Valid()` is true the
cursor is on an entry whose physical key has at least `prefixLen` bytes,
`Item().Key()` returns a key (no panic), and the stored prefix followed by that
key is the physical key. -/
theorem C10_key_in_bounds (it : BadgerIterator) (hv : it.Valid = true) :
    ∃ item k, it.iter.Item = some item ∧
      it.Item.prefixLen ≤ item.key.length ∧
      it.Item.Key = some k ∧
      it.pfx ++ k = item.key := by
  obtain ⟨item, hitem, hp⟩ := (valid_iff it).mp hv
  exact ⟨item, _, hitem, length_le_of_hasPrefix hp, key_of_valid it item hitem hp,
    drop_of_hasPrefix hp⟩

/-- Safe slicing on the scenario snapshot, after seeking CF default to b. -/
theorem C10_key_in_bounds_witness :
    ∃ item k, ((NewCFIterator (ascii "default") scenarioTxn).Seek (ascii "b")).iter.Item
        = some item ∧
      ((NewCFIterator (ascii "default") scenarioTxn).Seek (ascii "b")).Item.prefixLen
        ≤ item.key.length ∧
      ((NewCFIterator (ascii "default") scenarioTxn).Seek (ascii "b")).Item.Key = some k ∧
      ((NewCFIterator (ascii "default") scenarioTxn).Seek (ascii "b")).pfx ++ k = item.key :=
  C10_key_in_bounds ((NewCFIterator (ascii "default") scenarioTxn).Seek (ascii "b")) (by decide)

/-- C3: scoped scan over a sorted engine.  On a snapshot whose physical keys are
in ascending byte order, `Seek(k)` followed by the loop "while `Valid()`: read
`Item().Key()`, `Next()`" (with more fuel than the snapshot has entries) ends
and yields exactly the logical keys `j` with `c ++ "_" ++ j` stored and
`j ≥ k`, in strictly ascending order (so each once); the loop ends on an
iterator whose `Valid()` is false; the first key yielded is `k` when
`c ++ "_" ++ k` is stored, and in any case is the smallest stored logical key
of the CF that is at least `k`. -/
theorem C3_scoped_scan (txn : badger.Txn) (c k : Bytes) (fuel : Nat)
    (hasc : Ascending txn.items) (hfuel : txn.items.length < fuel) :
    ∃ out it',
      scan fuel ((NewCFIterator c txn).Seek k) = some (out, it') ∧
      (∀ j, j ∈ out ↔
        (∃ item ∈ txn.items, item.key = c ++ underscore ++ j) ∧
          bytesCompare j k ≠ Ordering.lt) ∧
      out.Pairwise (fun a b => bytesCompare a b = Ordering.lt) ∧
      out.Nodup ∧
      it'.Valid = false ∧
      ((∃ item ∈ txn.items, item.key = c ++ underscore ++ k) → out.head? = some k) ∧
      (∀ j0, out.head? = some j0 →
        ∀ j, (∃ item ∈ txn.items, item.key = c ++ underscore ++ j) →
          bytesCompare j k ≠ Ordering.lt → bytesCompare j0 j ≠ Ordering.gt) := by
  refine ⟨_, _, scan_seek_eq txn c k fuel hasc hfuel, ?_⟩
  generalize hout : (((txn.items.filter (fun item =>
      !decide (bytesCompare item.key (c ++ underscore ++ k) = Ordering.lt))).filter
      (fun item => hasPrefix item.key (c ++ underscore))).map
      (fun item => item.key.drop (c ++ underscore).length)) = out
  have hmem : ∀ j, j ∈ out ↔
      (∃ item ∈ txn.items, item.key = c ++ underscore ++ j) ∧
        bytesCompare j k ≠ Ordering.lt := by
    intro j
    rw [← hout]
    simp only [List.mem_map, List.mem_filter, Bool.not_eq_true', decide_eq_false_iff_not]
    constructor
    · rintro ⟨item, ⟨⟨hin, hge⟩, hp⟩, hj⟩
      obtain ⟨t, ht⟩ := (hasPrefix_iff _ _).mp hp
      have hjt : j = t := by rw [← hj, ht]; simp
      subst hjt
      refine ⟨⟨item, hin, ht⟩, ?_⟩
      rw [ht] at hge
      simp only [List.append_assoc] at hge
      rw [bytesCompare_append_left, bytesCompare_append_left] at hge
      exact hge
    · rintro ⟨⟨item, hin, hkey⟩, hge⟩
      refine ⟨item, ⟨⟨hin, ?_⟩, ?_⟩, ?_⟩
      · rw [hkey, bytesCompare_append_left]; exact hge
      · rw [hkey]; exact hasPrefix_append _ _
      · rw [hkey]; simp
  have hpair : out.Pairwise (fun a b => bytesCompare a b = Ordering.lt) := by
    rw [← hout, List.pairwise_map]
    have hsub : ((txn.items.filter (fun item =>
        !decide (bytesCompare item.key (c ++ underscore ++ k) = Ordering.lt))).filter
        (fun item => hasPrefix item.key (c ++ underscore))).Pairwise
        (fun a b : badger.Item => bytesCompare a.key b.key = Ordering.lt) :=
      List.Pairwise.sublist
        (List.Sublist.trans (List.filter_sublist _) (List.filter_sublist _)) hasc
    refine List.Pairwise.imp_of_mem ?_ hsub
    intro a b ha hb hab
    obtain ⟨ta, hta⟩ := (hasPrefix_iff _ _).mp (List.mem_filter.mp ha).2
    obtain ⟨tb, htb⟩ := (hasPrefix_iff _ _).mp (List.mem_filter.mp hb).2
    rw [hta, htb, bytesCompare_append_left] at hab
    rw [hta, htb]
    simpa using hab
  have hmin : ∀ j0, out.head? = some j0 → ∀ j ∈ out, bytesCompare j0 j ≠ Ordering.gt := by
    intro j0 hj0 j hj
    obtain ⟨rest, hrest⟩ := List.head?_eq_some_iff.mp hj0
    rw [hrest] at hj hpair
    rcases List.mem_cons.mp hj with rfl | hj
    · rw [bytesCompare_self]; decide
    · rw [(List.pairwise_cons.mp hpair).1 j hj]; decide
  refine ⟨hmem, hpair, ?_, ?_, ?_, ?_⟩
  · refine List.Pairwise.imp_of_mem ?_ hpair
    intro a b _ _ hab heq
    rw [heq, bytesCompare_self] at hab
    exact absurd hab (by decide)
  · have hh := List.head?_dropWhile_not (fun item : badger.Item =>
      hasPrefix item.key (c ++ underscore))
      (txn.items.dropWhile (fun item =>
        decide (bytesCompare item.key (c ++ underscore ++ k) = Ordering.lt)))
    simp only [BadgerIterator.Valid, badger.Iterator.ValidForPrefix, badger.Iterator.Item]
    split
    · rfl
    · rename_i item hitem
      rw [hitem] at hh
      exact hh
  · intro hk
    have hkin : k ∈ out := (hmem k).mpr ⟨hk, by rw [bytesCompare_self]; decide⟩
    cases hcase : out.head? with
    | none =>
      rw [List.head?_eq_none_iff] at hcase
      rw [hcase] at hkin
      exact absurd hkin (List.not_mem_nil _)
    | some j0 =>
      have h1 := hmin j0 hcase k hkin
      have h2 := ((hmem j0).mp (List.mem_of_mem_head? hcase)).2
      have h3 : bytesCompare j0 k = Ordering.eq := by
        cases h : bytesCompare j0 k with
        | lt => exact absurd h h2
        | eq => rfl
        | gt => exact absurd h h1
      rw [(bytesCompare_eq_iff j0 k).mp h3]
  · intro j0 hj0 j hj hge
    exact hmin j0 hj0 j ((hmem j).mpr ⟨hj, hge⟩)

/-- The scenario: seeking CF default to a and scanning reads the keys of default from a on and ends invalid. -/
theorem C3_scoped_scan_witness :
    ∃ out it',
      scan 5 ((NewCFIterator (ascii "default") scenarioTxn).Seek (ascii "a")) = some (out, it') ∧
      (∀ j, j ∈ out ↔
        (∃ item ∈ scenarioTxn.items, item.key = ascii "default" ++ underscore ++ j) ∧
          bytesCompare j (ascii "a") ≠ Ordering.lt) ∧
      out.head? = some (ascii "a") ∧
      it'.Valid = false := by
  obtain ⟨out, it', h1, h2, _, _, h5, h6, _⟩ :=
    C3_scoped_scan scenarioTxn (ascii "default") (ascii "a") 5 (by decide) (by decide)
  exact ⟨out, it', h1, h2, h6 ⟨entry "default_a" "1", by decide, by decide⟩, h5⟩

/-- C7 (failing input): `LevelDBIterator.Seek` hands the engine the logical key
without the CF prefix.  With the single physical key `cf_k` stored, `Seek("k")`
on the iterator of CF `cf` asks the engine for `k`, which sorts after `cf_k`:
the iterator is not `Valid()` and `Key()` has nothing to return.  With
`default_a` and `default_b` stored, `Seek("b")` on CF `default` lands on
`default_a` and `Key()` returns `a`. -/
theorem C7_seek_drops_cf_prefix :
    ((NewLevelDBIterator (ascii "cf") oneKeyDB).Seek (ascii "k")).iter
        = (NewLevelDBIterator (ascii "cf") oneKeyDB).iter.Seek (ascii "k") ∧
      ((NewLevelDBIterator (ascii "cf") oneKeyDB).Seek (ascii "k")).Valid = false ∧
      ((NewLevelDBIterator (ascii "cf") oneKeyDB).Seek (ascii "k")).Key = none ∧
      ((NewLevelDBIterator (ascii "default") twoKeyDB).Seek (ascii "b")).Valid = true ∧
      ((NewLevelDBIterator (ascii "default") twoKeyDB).Seek (ascii "b")).Key
        = some (ascii "a") := by
  refine ⟨rfl, ?_, ?_, ?_, ?_⟩ <;> decide

/-- C8 (failing input): `LevelDBIterator.Error` has no result.  An iterator
stopped by an engine fault and a cleanly exhausted one are both not `Valid()`,
their engines report different deferred errors, yet `Error()` gives the caller
the same (empty) result and leaves each iterator as it was. -/
theorem C8_error_result_dropped :
    (NewLevelDBIterator (ascii "cf") faultyDB).Valid = false ∧
      (NewLevelDBIterator (ascii "cf") cleanDB).Valid = false ∧
      (NewLevelDBIterator (ascii "cf") faultyDB).iter.GetError = some "corruption" ∧
      (NewLevelDBIterator (ascii "cf") cleanDB).iter.GetError = none ∧
      (NewLevelDBIterator (ascii "cf") faultyDB).Error.1
        = (NewLevelDBIterator (ascii "cf") cleanDB).Error.1 ∧
      (NewLevelDBIterator (ascii "cf") faultyDB).Error.2
        = NewLevelDBIterator (ascii "cf") faultyDB := by
  refine ⟨?_, ?_, ?_, ?_, rfl, rfl⟩ <;> decide

/-- C9: whole-keyspace rewind.  On a snapshot in ascending key order,
`Rewind()` (from any cursor state) puts the cursor on the first entry of the
whole snapshot, whose key is not above any stored key, whatever the CF; right
afterwards `Valid()` is true exactly when the snapshot is non-empty and that
smallest key starts with `cf ++ "_"`.  There is a snapshot in which the CF
holds a key and `Valid()` is false right after `Rewind()`. -/
theorem C9_rewind_whole_keyspace :
    (∀ (cf : Bytes) (txn : badger.Txn) (e : badger.Iterator),
        e.items = txn.items → Ascending txn.items →
        (BadgerIterator.Rewind { NewCFIterator cf txn with iter := e }).iter.Item
            = txn.items.head? ∧
          (∀ m, txn.items.head? = some m →
            ∀ item ∈ txn.items, bytesCompare m.key item.key ≠ Ordering.gt) ∧
          ((BadgerIterator.Rewind { NewCFIterator cf txn with iter := e }).Valid = true ↔
            ∃ m t, txn.items.head? = some m ∧ m.key = cf ++ [0x5F] ++ t)) ∧
      (∃ (cf : Bytes) (txn : badger.Txn),
        Ascending txn.items ∧
        (∃ item ∈ txn.items, ∃ j, item.key = cf ++ [0x5F] ++ j) ∧
        (NewCFIterator cf txn).Rewind.Valid = false) := by
  constructor
  · intro cf txn e he hasc
    have hitem : (BadgerIterator.Rewind { NewCFIterator cf txn with iter := e }).iter.Item
        = txn.items.head? := by
      simp [BadgerIterator.Rewind, badger.Iterator.Rewind, badger.Iterator.Item, he]
    refine ⟨hitem, ?_, ?_⟩
    · intro m hm item hin
      obtain ⟨rest, hrest⟩ := List.head?_eq_some_iff.mp hm
      unfold Ascending at hasc
      rw [hrest] at hasc hin
      rcases List.mem_cons.mp hin with rfl | hin
      · rw [bytesCompare_self]; decide
      · rw [(List.pairwise_cons.mp hasc).1 item hin]; decide
    · rw [valid_iff, hitem]
      constructor
      · rintro ⟨item, hm, hp⟩
        obtain ⟨t, ht⟩ := (hasPrefix_iff _ _).mp hp
        exact ⟨item, t, hm, ht⟩
      · rintro ⟨m, t, hm, ht⟩
        exact ⟨m, hm, (hasPrefix_iff _ _).mpr ⟨t, ht⟩⟩
  · exact ⟨ascii "lock", scenarioTxn, by decide, ⟨entry "lock_m" "4", by decide,
      ascii "m", by decide⟩, by decide⟩
